import Mathlib

/-!
Verification of the `ranger` HTTP byte-range parsing library.

The embedding models `ranger.go` directly:
* `Range`, `Range.overlaps`, `Range.merge` mirror the Go struct and methods.
* Go strings are modelled as `List Char`; `splitChar` mirrors
  `strings.Split` with a one-character separator, `trimPre` mirrors
  `strings.TrimPrefix`, and `atoi` mirrors `strconv.Atoi` (optional sign,
  decimal digits, 64-bit range check).
* `parseToken`, `parseTokens`, `Parse` mirror the body of `Parse`;
  `mergeRanges` and `sweep` mirror `mergeRanges`; `ParseHeader` mirrors
  `ParseHeader` with the header collection given as the value lists for
  the `Content-Length` and `Range` keys.
* Go's comparator sort (`sort.Sort(rangeSlice(br))` with the lexicographic
  `Less`) is modelled by `List.insertionSort` over the reflexive closure
  `rle` of that comparator; since `rle` is total, transitive and
  antisymmetric, the sorted permutation is unique, so any correct sort
  yields the same list.
-/

/-- The Go struct `Range`: a contiguous inclusive range. -/
structure Range where
  Start : Int
  Stop : Int
deriving DecidableEq, Repr

/-- Go `(b Range) overlaps(c Range) bool`. -/
def Range.overlaps (b c : Range) : Bool :=
  b.Start ≤ c.Stop && c.Start ≤ b.Stop

/-- Go `(b Range) merge(c Range) Range` (documented "valid iff b <= c"). -/
def Range.merge (b c : Range) : Range :=
  { Start := b.Start, Stop := c.Stop }

/-- Reflexive closure of Go's `rangeSlice.Less`: lexicographic order on
(Start, Stop). -/
def rle (a b : Range) : Prop :=
  a.Start < b.Start ∨ (a.Start = b.Start ∧ a.Stop ≤ b.Stop)

instance : DecidableRel rle := fun a b => by
  unfold rle; infer_instance

instance : IsTotal Range rle := by
  constructor
  intro a b
  rcases lt_trichotomy a.Start b.Start with h | h | h
  · exact Or.inl (Or.inl h)
  · rcases le_total a.Stop b.Stop with h2 | h2
    · exact Or.inl (Or.inr ⟨h, h2⟩)
    · exact Or.inr (Or.inr ⟨h.symm, h2⟩)
  · exact Or.inr (Or.inl h)

instance : IsTrans Range rle := by
  constructor
  intro a b c hab hbc
  rcases hab with h | ⟨h1, h2⟩
  · rcases hbc with h' | ⟨h1', _⟩
    · exact Or.inl (h.trans h')
    · exact Or.inl (h1' ▸ h)
  · rcases hbc with h' | ⟨h1', h2'⟩
    · exact Or.inl (h1 ▸ h')
    · exact Or.inr ⟨h1.trans h1', h2.trans h2'⟩

instance : IsAntisymm Range rle := by
  constructor
  intro a b hab hba
  rcases hab with h | ⟨h1, h2⟩
  · rcases hba with h' | ⟨h1', _⟩
    · exact absurd (h.trans h') (lt_irrefl _)
    · exact absurd (h1' ▸ h) (lt_irrefl _)
  · rcases hba with h' | ⟨_, h2'⟩
    · exact absurd (h1 ▸ h') (lt_irrefl _)
    · cases a; cases b
      simp_all
      exact le_antisymm h2 h2'

/-- The sweep loop of Go `mergeRanges` (the `for i := 1; ...` loop with
accumulator `cur`). -/
def sweep (cur : Range) : List Range → List Range
  | [] => [cur]
  | b :: bs => if cur.overlaps b then sweep (cur.merge b) bs else cur :: sweep b bs

/-- Go `mergeRanges`: return short inputs as-is, else sort and sweep. -/
def mergeRanges (br : List Range) : List Range :=
  if br.length < 2 then br
  else
    match List.insertionSort rle br with
    | [] => []
    | c :: rest => sweep c rest

/-- Go `strings.Split` with a single-character separator. -/
def splitChar (sep : Char) : List Char → List (List Char)
  | [] => [[]]
  | c :: cs =>
    if c = sep then [] :: splitChar sep cs
    else
      match splitChar sep cs with
      | [] => [[c]]
      | p :: ps => (c :: p) :: ps

/-- Go `strings.TrimPrefix s pre`: drop `pre` if it is a prefix, else
return `s` unchanged. -/
def trimPre (s pre : List Char) : List Char :=
  if pre.isPrefixOf s then s.drop pre.length else s

/-- Decimal value of a digit list (Go's per-digit accumulation). -/
def digitsVal (cs : List Char) : Nat :=
  cs.foldl (fun a c => 10 * a + (c.toNat - 48)) 0

/-- Nonempty and all decimal digits. -/
def isDigits (cs : List Char) : Bool :=
  !cs.isEmpty && cs.all Char.isDigit

/-- 2^63, the magnitude bound of Go's 64-bit `int`. -/
def intSize : Int := 9223372036854775808

/-- The 64-bit `int` range check of `strconv.Atoi`. -/
def atoiRange (v : Int) : Option Int :=
  if v < -intSize ∨ intSize - 1 < v then none else some v

/-- Shared digits-plus-range-check tail of `strconv.Atoi`. -/
def atoiNum (neg : Bool) (digits : List Char) : Option Int :=
  if isDigits digits then
    atoiRange (if neg then -(digitsVal digits : Int) else (digitsVal digits : Int))
  else none

/-- Go `strconv.Atoi`: optional `+`/`-` sign, then one or more decimal
digits, value within the 64-bit `int` range; anything else is an error
(modelled as `none`). -/
def atoi (s : List Char) : Option Int :=
  match s with
  | [] => none
  | c :: rest =>
    if c = '-' then atoiNum true rest
    else if c = '+' then atoiNum false rest
    else atoiNum false s

/-- The errors `Parse`/`ParseHeader` can return: the sentinel
`Error = errors.New("invalid range")`, a propagated `strconv.Atoi` error
(carrying the offending text), and `ParseHeader`'s
"invalid content length" error (carrying the raw header values). -/
inductive Err where
  | invalidRange
  | atoiErr (s : List Char)
  | invalidContentLength (vs : List (List Char))
deriving DecidableEq, Repr

/-- Decidable equality for `Except`, used to evaluate concrete runs. -/
def exceptDecEq {ε α : Type} [DecidableEq ε] [DecidableEq α] : DecidableEq (Except ε α)
  | .error a, .error b =>
    if h : a = b then .isTrue (by rw [h])
    else .isFalse (by intro hh; cases hh; exact h rfl)
  | .error _, .ok _ => .isFalse (by intro h; cases h)
  | .ok _, .error _ => .isFalse (by intro h; cases h)
  | .ok a, .ok b =>
    if h : a = b then .isTrue (by rw [h])
    else .isFalse (by intro hh; cases hh; exact h rfl)

instance {ε α : Type} [DecidableEq ε] [DecidableEq α] : DecidableEq (Except ε α) :=
  exceptDecEq

/-- The body of `Parse`'s inner loop for one comma-separated token:
split on `-`, dispatch on the three range forms, validate bounds. -/
def parseToken (maxLen : Int) (tok : List Char) : Except Err Range :=
  match splitChar '-' tok with
  | [p0, p1] =>
    if p0 = [] then
      match atoi p1 with
      | none => .error (.atoiErr p1)
      | some y =>
        if y < 0 ∨ y > maxLen then .error .invalidRange
        else .ok { Start := maxLen - y, Stop := maxLen }
    else if p1 = [] then
      match atoi p0 with
      | none => .error (.atoiErr p0)
      | some x =>
        if x < 0 ∨ x > maxLen then .error .invalidRange
        else .ok { Start := x, Stop := maxLen }
    else
      match atoi p0 with
      | none => .error (.atoiErr p0)
      | some x =>
        match atoi p1 with
        | none => .error (.atoiErr p1)
        | some y =>
          if x < 0 ∨ y < 0 ∨ x > maxLen ∨ y > maxLen ∨ x > y then .error .invalidRange
          else .ok { Start := x, Stop := y }
  | _ => .error .invalidRange

/-- `Parse`'s loops over all tokens, collecting results and returning the
first error. -/
def parseTokens (maxLen : Int) : List (List Char) → Except Err (List Range)
  | [] => .ok []
  | t :: ts =>
    match parseToken maxLen t with
    | .error e => .error e
    | .ok r =>
      match parseTokens maxLen ts with
      | .error e => .error e
      | .ok rs => .ok (r :: rs)

/-- The flat token list `Parse` iterates over: each input string is
prefix-trimmed and split on commas, in order. -/
def parseTokenList (ranges : List (List Char)) (pre : List Char) : List (List Char) :=
  (ranges.map (fun r => splitChar ',' (trimPre r pre))).flatten

/-- Go `Parse(ranges []string, prefix string, maxLen int)`. -/
def Parse (ranges : List (List Char)) (pre : List Char) (maxLen : Int) :
    Except Err (List Range) :=
  match parseTokens maxLen (parseTokenList ranges pre) with
  | .error e => .error e
  | .ok result => .ok (mergeRanges result)

/-- The invalid-range condition as the spec words it (for comparison with
`parseToken`): the token does not split on `-` into exactly two parts, or a
parsed bound falls outside `[0, maxLen]`, or a closed range has start >
stop. -/
def invalidRangeCond (maxLen : Int) (tok : List Char) : Bool :=
  match splitChar '-' tok with
  | [p0, p1] =>
    if p0 = [] then
      match atoi p1 with
      | some y => decide (y < 0 ∨ y > maxLen)
      | none => false
    else if p1 = [] then
      match atoi p0 with
      | some x => decide (x < 0 ∨ x > maxLen)
      | none => false
    else
      match atoi p0, atoi p1 with
      | some x, some y => decide (x < 0 ∨ y < 0 ∨ x > maxLen ∨ y > maxLen ∨ x > y)
      | _, _ => false
  | _ => true

/-- `parseToken` with the `x < 0` / `y < 0` disjuncts deleted from every
bounds check (for comparison: those comparisons are dead code). -/
def parseTokenNoNeg (maxLen : Int) (tok : List Char) : Except Err Range :=
  match splitChar '-' tok with
  | [p0, p1] =>
    if p0 = [] then
      match atoi p1 with
      | none => .error (.atoiErr p1)
      | some y =>
        if y > maxLen then .error .invalidRange
        else .ok { Start := maxLen - y, Stop := maxLen }
    else if p1 = [] then
      match atoi p0 with
      | none => .error (.atoiErr p0)
      | some x =>
        if x > maxLen then .error .invalidRange
        else .ok { Start := x, Stop := maxLen }
    else
      match atoi p0 with
      | none => .error (.atoiErr p0)
      | some x =>
        match atoi p1 with
        | none => .error (.atoiErr p1)
        | some y =>
          if x > maxLen ∨ y > maxLen ∨ x > y then .error .invalidRange
          else .ok { Start := x, Stop := y }
  | _ => .error .invalidRange

/-- Go `http.Header.Get`: first value for the key, or `""` if absent. -/
def hGet (vs : List (List Char)) : List Char := vs.headD []

/-- Go `ParseHeader(h http.Header)`, with the header collection given as
the value lists stored under `Content-Length` and `Range`. -/
def ParseHeader (contentLength rangeVals : List (List Char)) : Except Err (List Range) :=
  match atoi (hGet contentLength) with
  | none => .error (.invalidContentLength contentLength)
  | some length => Parse rangeVals "bytes=".toList length

/-! ### Order and overlap helper lemmas -/

theorem rle_start {a b : Range} (h : rle a b) : a.Start ≤ b.Start := by
  rcases h with h | ⟨h, _⟩
  · exact le_of_lt h
  · exact le_of_eq h

theorem overlaps_iff {a b : Range} :
    a.overlaps b = true ↔ a.Start ≤ b.Stop ∧ b.Start ≤ a.Stop := by
  simp [Range.overlaps]

theorem overlaps_false_iff {a b : Range} :
    a.overlaps b = false ↔ ¬(a.Start ≤ b.Stop ∧ b.Start ≤ a.Stop) := by
  rw [← Bool.not_eq_true, overlaps_iff]

/-! ### Sweep lemmas -/

theorem sweep_head (bs : List Range) : ∀ (cur : Range),
    (∀ b ∈ bs, cur.Start ≤ b.Start) →
    ∃ e tl, sweep cur bs = { Start := cur.Start, Stop := e } :: tl ∧
      (e = cur.Stop ∨ (cur.Start ≤ cur.Stop ∧ cur.Start ≤ e)) := by
  induction bs with
  | nil =>
    intro cur _
    exact ⟨cur.Stop, [], rfl, Or.inl rfl⟩
  | cons b bs ih =>
    intro cur h
    by_cases hov : cur.overlaps b = true
    · have hb : cur.Start ≤ b.Start := h b (List.mem_cons_self _ _)
      obtain ⟨hcb, hbc⟩ := overlaps_iff.mp hov
      obtain ⟨e, tl, heq, hd⟩ :=
        ih (cur.merge b) (fun c hc => h c (List.mem_cons_of_mem _ hc))
      refine ⟨e, tl, ?_, ?_⟩
      · simp only [sweep, if_pos hov]
        exact heq
      · right
        refine ⟨le_trans hb hbc, ?_⟩
        rcases hd with hd | ⟨_, hd⟩
        · rw [hd]; exact hcb
        · exact hd
    · exact ⟨cur.Stop, sweep b bs, by simp only [sweep, if_neg hov], Or.inl rfl⟩

theorem sweep_chain (bs : List Range) : ∀ (cur : Range),
    (∀ b ∈ bs, rle cur b) → List.Pairwise rle bs →
    List.Chain' (fun a b => rle a b ∧ a.overlaps b = false) (sweep cur bs) := by
  induction bs with
  | nil => intro cur _ _; exact List.chain'_singleton cur
  | cons b bs ih =>
    intro cur h hp
    have hcb : rle cur b := h b (List.mem_cons_self _ _)
    have hrest : ∀ c ∈ bs, rle b c := fun c hc => (List.pairwise_cons.mp hp).1 c hc
    have hp' : List.Pairwise rle bs := (List.pairwise_cons.mp hp).2
    by_cases hov : cur.overlaps b = true
    · simp only [sweep, if_pos hov]
      apply ih (cur.merge b) ?_ hp'
      intro c hc
      have h1 : rle cur c := h c (List.mem_cons_of_mem _ hc)
      have h2 : rle b c := hrest c hc
      rcases h1 with h1 | ⟨h1, h1'⟩
      · exact Or.inl h1
      · right
        refine ⟨h1, ?_⟩
        have hb1 : cur.Start ≤ b.Start := rle_start hcb
        have hb2 : b.Start ≤ c.Start := rle_start h2
        have heqs : b.Start = c.Start := le_antisymm hb2 (by rw [← h1]; exact hb1)
        rcases h2 with h2 | ⟨_, h2'⟩
        · exact absurd heqs (ne_of_lt h2)
        · exact h2'
    · have hchain := ih b hrest hp'
      have hstart : ∀ c ∈ bs, b.Start ≤ c.Start := fun c hc => rle_start (hrest c hc)
      obtain ⟨e, tl, heq, hd⟩ := sweep_head bs b hstart
      simp only [sweep, if_neg hov]
      rw [heq]
      rw [heq] at hchain
      apply List.chain'_cons.mpr
      refine ⟨⟨?_, ?_⟩, hchain⟩
      · rcases hcb with h1 | ⟨h1, h1'⟩
        · exact Or.inl h1
        · right
          refine ⟨h1, ?_⟩
          rcases hd with hd | ⟨hbv, hbe⟩
          · rw [hd]; exact h1'
          · have h2 : ¬(cur.Start ≤ b.Stop ∧ b.Start ≤ cur.Stop) := fun hc =>
              hov (overlaps_iff.mpr hc)
            have h3 : cur.Start ≤ b.Stop := h1 ▸ hbv
            have h4 : ¬ b.Start ≤ cur.Stop := fun hc => h2 ⟨h3, hc⟩
            have h5 : cur.Stop < b.Start := lt_of_not_le h4
            exact le_trans (le_of_lt h5) hbe
      · rw [overlaps_false_iff]
        rintro ⟨hce, hbc⟩
        have h2 : ¬(cur.Start ≤ b.Stop ∧ b.Start ≤ cur.Stop) := fun hc =>
          hov (overlaps_iff.mpr hc)
        have h3 : ¬ cur.Start ≤ b.Stop := fun hc => h2 ⟨hc, hbc⟩
        have h4 : b.Stop < cur.Start := lt_of_not_le h3
        rcases hd with hd | ⟨hbv, _⟩
        · rw [hd] at hce; exact absurd hce h3
        · have h5 : cur.Start ≤ b.Start := rle_start hcb
          have h6 : b.Start ≤ b.Stop := hbv
          omega

theorem sweep_mem (bs : List Range) : ∀ (cur : Range) (P : Range → Prop),
    P cur → (∀ b ∈ bs, P b) →
    (∀ a b : Range, P a → P b → a.overlaps b = true → P (a.merge b)) →
    ∀ r ∈ sweep cur bs, P r := by
  induction bs with
  | nil =>
    intro cur P hc _ _ r hr
    simp only [sweep, List.mem_singleton] at hr
    rwa [hr]
  | cons b bs ih =>
    intro cur P hc h hm r hr
    by_cases hov : cur.overlaps b = true
    · simp only [sweep, if_pos hov] at hr
      exact ih (cur.merge b) P (hm cur b hc (h b (List.mem_cons_self _ _)) hov)
        (fun c hcc => h c (List.mem_cons_of_mem _ hcc)) hm r hr
    · simp only [sweep, if_neg hov] at hr
      rcases List.mem_cons.mp hr with hr | hr
      · rwa [hr]
      · exact ih b P (h b (List.mem_cons_self _ _))
          (fun c hcc => h c (List.mem_cons_of_mem _ hcc)) hm r hr

theorem sweep_of_chain : ∀ (bs : List Range) (cur : Range),
    List.Chain' (fun a b => a.overlaps b = false) (cur :: bs) →
    sweep cur bs = cur :: bs := by
  intro bs
  induction bs with
  | nil => intro cur _; rfl
  | cons b bs ih =>
    intro cur h
    have h1 : cur.overlaps b = false := (List.chain'_cons.mp h).1
    have h2 := (List.chain'_cons.mp h).2
    have hov : ¬ cur.overlaps b = true := by simp [h1]
    simp only [sweep, if_neg hov]
    rw [ih b h2]

/-! ### mergeRanges lemmas -/

theorem mergeRanges_eq_sweep {br : List Range} (h : ¬ br.length < 2) :
    ∃ c rest, List.insertionSort rle br = c :: rest ∧ mergeRanges br = sweep c rest := by
  cases hs : List.insertionSort rle br with
  | nil =>
    have hp := List.perm_insertionSort rle br
    rw [hs] at hp
    have := hp.length_eq
    simp at this
    omega
  | cons c rest =>
    refine ⟨c, rest, rfl, ?_⟩
    simp only [mergeRanges, if_neg h, hs]

theorem mergeRanges_chain (br : List Range) :
    List.Chain' (fun a b => rle a b ∧ a.overlaps b = false) (mergeRanges br) := by
  by_cases h : br.length < 2
  · cases br with
    | nil => simp [mergeRanges]
    | cons a l =>
      cases l with
      | nil =>
        simp only [mergeRanges]
        exact List.chain'_singleton a
      | cons b l2 => simp at h; omega
  · obtain ⟨c, rest, hs, he⟩ := mergeRanges_eq_sweep h
    rw [he]
    have hsorted : List.Pairwise rle (c :: rest) := by
      have := List.sorted_insertionSort rle br
      rw [hs] at this
      exact this
    exact sweep_chain rest c (fun b hb => (List.pairwise_cons.mp hsorted).1 b hb)
      (List.pairwise_cons.mp hsorted).2

theorem mergeRanges_mem (br : List Range) (P : Range → Prop)
    (h : ∀ r ∈ br, P r)
    (hm : ∀ a b : Range, P a → P b → a.overlaps b = true → P (a.merge b)) :
    ∀ r ∈ mergeRanges br, P r := by
  by_cases hl : br.length < 2
  · intro r hr
    simp only [mergeRanges, if_pos hl] at hr
    exact h r hr
  · obtain ⟨c, rest, hs, he⟩ := mergeRanges_eq_sweep hl
    rw [he]
    have hmem : ∀ r ∈ c :: rest, P r := by
      intro r hr
      apply h r
      apply (List.perm_insertionSort rle br).mem_iff.mp
      rw [hs]
      exact hr
    exact sweep_mem rest c P (hmem c (List.mem_cons_self _ _))
      (fun b hb => hmem b (List.mem_cons_of_mem _ hb)) hm

theorem mergeRanges_sorted (br : List Range) : List.Pairwise rle (mergeRanges br) := by
  have h2 : List.Chain' rle (mergeRanges br) :=
    List.Chain'.imp (fun a b hab => hab.1) (mergeRanges_chain br)
  exact List.chain'_iff_pairwise.mp h2

theorem mergeRanges_idem_aux (br : List Range) :
    mergeRanges (mergeRanges br) = mergeRanges br := by
  by_cases hl : (mergeRanges br).length < 2
  · rw [mergeRanges, if_pos hl]
  · have hsorted : List.Pairwise rle (mergeRanges br) := mergeRanges_sorted br
    have hins : List.insertionSort rle (mergeRanges br) = mergeRanges br :=
      List.Sorted.insertionSort_eq hsorted
    obtain ⟨c, rest, hs, he⟩ := mergeRanges_eq_sweep hl
    rw [he]
    rw [hins] at hs
    have hchain : List.Chain' (fun a b => a.overlaps b = false) (c :: rest) := by
      have := List.Chain'.imp (fun a b hab => hab.2) (mergeRanges_chain br)
      rw [hs] at this
      exact this
    rw [sweep_of_chain rest c hchain, ← hs]

theorem mergeRanges_perm_aux (xs ys : List Range) (h : xs.Perm ys) :
    mergeRanges xs = mergeRanges ys := by
  have hlen := h.length_eq
  by_cases hl : xs.length < 2
  · have hxy : xs = ys := by
      cases xs with
      | nil => exact h.nil_eq
      | cons a l =>
        cases l with
        | nil => exact (List.singleton_perm.mp h)
        | cons b l2 => simp at hl; omega
    rw [hxy]
  · have hl' : ¬ ys.length < 2 := by omega
    obtain ⟨c, rest, hs, he⟩ := mergeRanges_eq_sweep hl
    obtain ⟨c', rest', hs', he'⟩ := mergeRanges_eq_sweep hl'
    have heq : List.insertionSort rle xs = List.insertionSort rle ys := by
      refine List.eq_of_perm_of_sorted ?_ (List.sorted_insertionSort rle xs)
        (List.sorted_insertionSort rle ys)
      exact (List.perm_insertionSort rle xs).trans
        (h.trans (List.perm_insertionSort rle ys).symm)
    rw [hs, hs'] at heq
    injection heq with h1 h2
    rw [he, he', h1, h2]

/-! ### Parse-level helper lemmas -/

theorem parseToken_ok_bounds {maxLen : Int} {tok : List Char} {r : Range}
    (h : parseToken maxLen tok = .ok r) :
    0 ≤ r.Start ∧ r.Start ≤ r.Stop ∧ r.Stop ≤ maxLen := by
  unfold parseToken at h
  repeat' split at h
  all_goals first
    | exact Except.noConfusion h
    | (injection h with h
       subst h
       refine ⟨?_, ?_, ?_⟩ <;> simp_all)

theorem parseTokens_ok_mem {maxLen : Int} : ∀ {ts : List (List Char)} {rs : List Range},
    parseTokens maxLen ts = .ok rs →
    ∀ r ∈ rs, ∃ t ∈ ts, parseToken maxLen t = .ok r := by
  intro ts
  induction ts with
  | nil =>
    intro rs h r hr
    simp only [parseTokens] at h
    injection h with h
    subst h
    simp at hr
  | cons t ts ih =>
    intro rs h r hr
    simp only [parseTokens] at h
    cases ht : parseToken maxLen t with
    | error e => rw [ht] at h; exact absurd h (by simp)
    | ok r0 =>
      rw [ht] at h
      cases hts : parseTokens maxLen ts with
      | error e => rw [hts] at h; exact absurd h (by simp)
      | ok rs0 =>
        rw [hts] at h
        injection h with h
        subst h
        rcases List.mem_cons.mp hr with hr | hr
        · exact ⟨t, List.mem_cons_self _ _, hr ▸ ht⟩
        · obtain ⟨t', ht', hp⟩ := ih hts r hr
          exact ⟨t', List.mem_cons_of_mem _ ht', hp⟩

theorem parseTokens_err {maxLen : Int} : ∀ {ts : List (List Char)} {e : Err},
    parseTokens maxLen ts = .error e → ∃ t ∈ ts, parseToken maxLen t = .error e := by
  intro ts
  induction ts with
  | nil =>
    intro e h
    exact absurd h (by simp [parseTokens])
  | cons t ts ih =>
    intro e h
    simp only [parseTokens] at h
    cases ht : parseToken maxLen t with
    | error e' =>
      rw [ht] at h
      injection h with h
      subst h
      exact ⟨t, List.mem_cons_self _ _, ht⟩
    | ok r0 =>
      rw [ht] at h
      cases hts : parseTokens maxLen ts with
      | error e' =>
        rw [hts] at h
        injection h with h
        subst h
        obtain ⟨t', ht', hp⟩ := ih hts
        exact ⟨t', List.mem_cons_of_mem _ ht', hp⟩
      | ok rs0 => rw [hts] at h; exact absurd h (by simp)

theorem Parse_ok_inv {ranges : List (List Char)} {pre : List Char} {maxLen : Int}
    {out : List Range} (h : Parse ranges pre maxLen = .ok out) :
    ∃ rs, parseTokens maxLen (parseTokenList ranges pre) = .ok rs ∧
      out = mergeRanges rs := by
  unfold Parse at h
  cases hts : parseTokens maxLen (parseTokenList ranges pre) with
  | error e => rw [hts] at h; exact absurd h (by simp)
  | ok rs =>
    rw [hts] at h
    injection h with h
    exact ⟨rs, rfl, h.symm⟩

theorem Parse_err_inv {ranges : List (List Char)} {pre : List Char} {maxLen : Int}
    {e : Err} (h : Parse ranges pre maxLen = .error e) :
    parseTokens maxLen (parseTokenList ranges pre) = .error e := by
  unfold Parse at h
  cases hts : parseTokens maxLen (parseTokenList ranges pre) with
  | error e' =>
    rw [hts] at h
    injection h with h
    rw [h]
  | ok rs => rw [hts] at h; exact absurd h (by simp)

theorem parseToken_err_kinds {maxLen : Int} {tok : List Char} {e : Err}
    (h : parseToken maxLen tok = .error e) :
    e = .invalidRange ∨ ∃ s, e = .atoiErr s ∧ atoi s = none ∧ s ∈ splitChar '-' tok := by
  unfold parseToken at h
  repeat' split at h
  all_goals first
    | exact Except.noConfusion h
    | (injection h with h
       subst h
       exact Or.inl rfl)
    | (injection h with h
       subst h
       right
       refine ⟨_, rfl, by assumption, ?_⟩
       simp_all)

/-! ### String and Atoi helper lemmas -/

theorem splitChar_ne_nil (sep : Char) : ∀ l, splitChar sep l ≠ [] := by
  intro l
  induction l with
  | nil => simp [splitChar]
  | cons c cs ih =>
    simp only [splitChar]
    split
    · simp
    · split
      · simp
      · simp

theorem splitChar_parts (sep : Char) : ∀ l, ∀ p ∈ splitChar sep l, sep ∉ p := by
  intro l
  induction l with
  | nil =>
    intro p hp
    simp only [splitChar, List.mem_singleton] at hp
    simp [hp]
  | cons c cs ih =>
    intro p hp
    simp only [splitChar] at hp
    by_cases hc : c = sep
    · rw [if_pos hc] at hp
      rcases List.mem_cons.mp hp with hp | hp
      · simp [hp]
      · exact ih p hp
    · rw [if_neg hc] at hp
      cases hs : splitChar sep cs with
      | nil => exact absurd hs (splitChar_ne_nil sep cs)
      | cons q qs =>
        rw [hs] at hp
        rcases List.mem_cons.mp hp with hp | hp
        · subst hp
          intro hmem
          rcases List.mem_cons.mp hmem with hmem | hmem
          · exact hc hmem.symm
          · exact ih q (hs ▸ List.mem_cons_self _ _) hmem
        · exact ih p (hs ▸ List.mem_cons_of_mem _ hp)

theorem splitChar_not_mem {sep : Char} : ∀ {l : List Char}, sep ∉ l → splitChar sep l = [l] := by
  intro l
  induction l with
  | nil => intro _; rfl
  | cons c cs ih =>
    intro h
    have hc : ¬ c = sep := fun hc => h (hc ▸ List.mem_cons_self _ _)
    have hcs : sep ∉ cs := fun hm => h (List.mem_cons_of_mem _ hm)
    simp only [splitChar, if_neg hc, ih hcs]

theorem atoiNum_some {neg : Bool} {ds : List Char} {v : Int}
    (h : atoiNum neg ds = some v) :
    isDigits ds = true ∧ v = (if neg then -(digitsVal ds : Int) else (digitsVal ds : Int)) := by
  unfold atoiNum atoiRange at h
  repeat' split at h
  all_goals first
    | exact Option.noConfusion h
    | (injection h with h
       subst h
       simp_all)

theorem atoi_some_chars {s : List Char} {v : Int} (h : atoi s = some v) :
    ∀ c ∈ s, c = '+' ∨ c = '-' ∨ c.isDigit = true := by
  cases s with
  | nil => simp [atoi] at h
  | cons c0 cs =>
    simp only [atoi] at h
    intro c hc
    by_cases h0 : c0 = '-'
    · rw [if_pos h0] at h
      rcases List.mem_cons.mp hc with hc0 | hc0
      · subst hc0; right; left; exact h0
      · have := (atoiNum_some h).1
        simp only [isDigits, Bool.and_eq_true, List.all_eq_true] at this
        exact Or.inr (Or.inr (this.2 c hc0))
    · rw [if_neg h0] at h
      by_cases h1 : c0 = '+'
      · rw [if_pos h1] at h
        rcases List.mem_cons.mp hc with hc0 | hc0
        · subst hc0; left; exact h1
        · have := (atoiNum_some h).1
          simp only [isDigits, Bool.and_eq_true, List.all_eq_true] at this
          exact Or.inr (Or.inr (this.2 c hc0))
      · rw [if_neg h1] at h
        have := (atoiNum_some h).1
        simp only [isDigits, Bool.and_eq_true, List.all_eq_true] at this
        exact Or.inr (Or.inr (this.2 c hc))

theorem atoi_nonneg {s : List Char} {v : Int} (hm : '-' ∉ s) (h : atoi s = some v) :
    0 ≤ v := by
  cases s with
  | nil => simp [atoi] at h
  | cons c0 cs =>
    have hc0 : ¬ c0 = '-' := fun hc => hm (hc ▸ List.mem_cons_self _ _)
    simp only [atoi, if_neg hc0] at h
    by_cases h1 : c0 = '+'
    · rw [if_pos h1] at h
      have := (atoiNum_some h).2
      simp only [Bool.false_eq_true, if_false] at this
      rw [this]
      exact Int.natCast_nonneg _
    · rw [if_neg h1] at h
      have := (atoiNum_some h).2
      simp only [Bool.false_eq_true, if_false] at this
      rw [this]
      exact Int.natCast_nonneg _

theorem parseToken_eq_noNeg (maxLen : Int) (tok : List Char) :
    parseToken maxLen tok = parseTokenNoNeg maxLen tok := by
  have hparts := splitChar_parts '-' tok
  unfold parseToken parseTokenNoNeg
  generalize hs : splitChar '-' tok = parts at hparts ⊢
  cases parts with
  | nil => rfl
  | cons p0 tl =>
    cases tl with
    | nil => rfl
    | cons p1 tl2 =>
      cases tl2 with
      | cons p2 tl3 => rfl
      | nil =>
        have hp0 : '-' ∉ p0 := hparts p0 (List.mem_cons_self _ _)
        have hp1 : '-' ∉ p1 := hparts p1 (List.mem_cons_of_mem _ (List.mem_cons_self _ _))
        by_cases h0 : p0 = []
        · simp only [if_pos h0]
          cases ha : atoi p1 with
          | none => rfl
          | some y =>
            have hy : 0 ≤ y := atoi_nonneg hp1 ha
            have hiff : (y < 0 ∨ y > maxLen) ↔ (y > maxLen) := by omega
            simp only [hiff]
        · simp only [if_neg h0]
          by_cases h1 : p1 = []
          · simp only [if_pos h1]
            cases ha : atoi p0 with
            | none => rfl
            | some x =>
              have hx : 0 ≤ x := atoi_nonneg hp0 ha
              have hiff : (x < 0 ∨ x > maxLen) ↔ (x > maxLen) := by omega
              simp only [hiff]
          · simp only [if_neg h1]
            cases ha : atoi p0 with
            | none => rfl
            | some x =>
              cases hb : atoi p1 with
              | none => rfl
              | some y =>
                have hx : 0 ≤ x := atoi_nonneg hp0 ha
                have hy : 0 ≤ y := atoi_nonneg hp1 hb
                have hiff : (x < 0 ∨ y < 0 ∨ x > maxLen ∨ y > maxLen ∨ x > y) ↔
                    (x > maxLen ∨ y > maxLen ∨ x > y) := by omega
                simp only [hiff]

theorem chain_strengthen : ∀ (l : List Range),
    List.Chain' (fun a b => rle a b ∧ a.overlaps b = false) l →
    (∀ r ∈ l, r.Start ≤ r.Stop) →
    List.Chain' (fun a b => a.Stop < b.Start) l := by
  intro l
  induction l with
  | nil => intro _ _; exact List.chain'_nil
  | cons a l ih =>
    cases l with
    | nil => intro _ _; exact List.chain'_singleton a
    | cons b l2 =>
      intro h hv
      obtain ⟨⟨hab, hov⟩, htail⟩ := List.chain'_cons.mp h
      apply List.chain'_cons.mpr
      refine ⟨?_, ih htail (fun r hr => hv r (List.mem_cons_of_mem _ hr))⟩
      have hbv : b.Start ≤ b.Stop := hv b (List.mem_cons_of_mem _ (List.mem_cons_self _ _))
      have h1 : a.Start ≤ b.Start := rle_start hab
      have h2 := overlaps_false_iff.mp hov
      have h3 : a.Start ≤ b.Stop := le_trans h1 hbv
      have h4 : ¬ b.Start ≤ a.Stop := fun hc => h2 ⟨h3, hc⟩
      exact lt_of_not_le h4

theorem atoi_not_comma {s : List Char} {v : Int} (h : atoi s = some v) : ',' ∉ s := by
  intro hc
  rcases atoi_some_chars h ',' hc with h1 | h1 | h1 <;> revert h1 <;> decide

/-! ### Claim theorems -/

/-- C1: the claim that `mergeRanges` preserves the covered set fails on the
code. On the valid intervals [0,10] and [2,5] (with [2,5] nested inside
[0,10]), `mergeRanges` returns [[0,5]]: position 10 is covered by the input
but not by the output, and the full `Parse` pipeline shows the same loss.
The `merge` method keeps the second interval's Stop unconditionally,
violating its own "valid iff b <= c" precondition for nested intervals. -/
theorem C1_mergeRanges_loses_coverage :
    mergeRanges [{ Start := 0, Stop := 10 }, { Start := 2, Stop := 5 }] =
      [{ Start := 0, Stop := 5 }] ∧
    (∃ r ∈ [Range.mk 0 10, Range.mk 2 5], r.Start ≤ 10 ∧ 10 ≤ r.Stop) ∧
    (¬ ∃ r ∈ mergeRanges [Range.mk 0 10, Range.mk 2 5], r.Start ≤ 10 ∧ 10 ≤ r.Stop) ∧
    Parse ["bytes=0-10,2-5".toList] "bytes=".toList 350 =
      .ok [{ Start := 0, Stop := 5 }] := by
  decide

/-- C2: the documented scenario: parsing ["bytes=0-99", "bytes=50-99,200-300",
"bytes=250-,-50"] with prefix "bytes=" and maxLen 350 succeeds with exactly
[(0,99), (200,350)] in that order. -/
theorem C2_parse_scenario :
    Parse ["bytes=0-99".toList, "bytes=50-99,200-300".toList, "bytes=250-,-50".toList]
      "bytes=".toList 350 =
      .ok [{ Start := 0, Stop := 99 }, { Start := 200, Stop := 350 }] := by
  decide

/-- C3: every successful `Parse` returns a collection in which each adjacent
pair (a, b) has a strict gap (a.Stop < b.Start, hence sorted ascending and
pairwise disjoint) and every interval satisfies Start ≤ Stop. -/
theorem C3_parse_sorted_disjoint {ranges : List (List Char)} {pre : List Char}
    {maxLen : Int} {out : List Range} (h : Parse ranges pre maxLen = .ok out) :
    List.Chain' (fun a b => a.Stop < b.Start) out ∧ ∀ r ∈ out, r.Start ≤ r.Stop := by
  obtain ⟨rs, hts, hout⟩ := Parse_ok_inv h
  have hval : ∀ r ∈ rs, r.Start ≤ r.Stop := by
    intro r hr
    obtain ⟨t, _, hp⟩ := parseTokens_ok_mem hts r hr
    exact (parseToken_ok_bounds hp).2.1
  have hmem : ∀ r ∈ mergeRanges rs, r.Start ≤ r.Stop := by
    apply mergeRanges_mem rs (fun r => r.Start ≤ r.Stop) hval
    intro a b _ _ hov
    exact (overlaps_iff.mp hov).1
  subst hout
  exact ⟨chain_strengthen _ (mergeRanges_chain rs) hmem, hmem⟩

/-- Witness for C3 at a concrete successful parse. -/
theorem C3_parse_sorted_disjoint_witness :
    List.Chain' (fun a b => a.Stop < b.Start)
      [Range.mk 0 99, Range.mk 200 300] ∧
    ∀ r ∈ [Range.mk 0 99, Range.mk 200 300], r.Start ≤ r.Stop :=
  C3_parse_sorted_disjoint
    (by decide :
      Parse ["bytes=0-99,200-300".toList] "bytes=".toList 350 =
        .ok [Range.mk 0 99, Range.mk 200 300])

/-- C4: every successful `Parse` with content length maxLen returns only
intervals with 0 ≤ Start ≤ Stop ≤ maxLen. -/
theorem C4_parse_bounds {ranges : List (List Char)} {pre : List Char}
    {maxLen : Int} {out : List Range} (h : Parse ranges pre maxLen = .ok out) :
    ∀ r ∈ out, 0 ≤ r.Start ∧ r.Start ≤ r.Stop ∧ r.Stop ≤ maxLen := by
  obtain ⟨rs, hts, hout⟩ := Parse_ok_inv h
  subst hout
  apply mergeRanges_mem
  · intro r hr
    obtain ⟨t, _, hp⟩ := parseTokens_ok_mem hts r hr
    exact parseToken_ok_bounds hp
  · intro a b ha hb hov
    exact ⟨ha.1, (overlaps_iff.mp hov).1, hb.2.2⟩

/-- Witness for C4 at a concrete successful parse. -/
theorem C4_parse_bounds_witness :
    0 ≤ (Range.mk 295 300).Start ∧ (Range.mk 295 300).Start ≤ (Range.mk 295 300).Stop ∧
      (Range.mk 295 300).Stop ≤ 300 :=
  C4_parse_bounds
    (by decide : Parse ["bytes=-5".toList] "bytes=".toList 300 = .ok [Range.mk 295 300])
    (Range.mk 295 300) (by decide)

/-- C5 counterexample: "-5" is not a non-negative integer, yet `ParseHeader`
with Content-Length "-5" (and no Range values) returns ok [] instead of the
invalid-content-length error: Go's Atoi accepts negative numerals. -/
theorem C5_counterexample :
    ParseHeader ["-5".toList] [] = .ok [] ∧
    ParseHeader ["-5".toList] [] ≠ .error (.invalidContentLength ["-5".toList]) := by
  decide

/-- C5 (amended): `ParseHeader` returns the invalid-content-length error
(carrying the raw header values) exactly when the first Content-Length value
(the empty string when the header is missing) fails to parse as an integer;
a negative value such as "-5" parses successfully and is passed to `Parse`
as the content length. -/
theorem C5_invalid_content_length (cl rv : List (List Char)) :
    ParseHeader cl rv = .error (.invalidContentLength cl) ↔ atoi (hGet cl) = none := by
  constructor
  · intro h
    cases ha : atoi (hGet cl) with
    | none => rfl
    | some v =>
      unfold ParseHeader at h
      rw [ha] at h
      obtain ⟨t, _, hp⟩ := parseTokens_err (Parse_err_inv h)
      rcases parseToken_err_kinds hp with h1 | ⟨s, h1, _, _⟩
      · exact Err.noConfusion h1
      · exact Err.noConfusion h1
  · intro h
    unfold ParseHeader
    rw [h]

/-- Witness for C5 at a concrete non-numeric Content-Length. -/
theorem C5_invalid_content_length_witness :
    ParseHeader ["abc".toList] [] = .error (.invalidContentLength ["abc".toList]) :=
  (C5_invalid_content_length ["abc".toList] []).mpr (by decide)

/-- C6: per token, `parseToken` returns the sentinel invalid-range error
exactly under the spec's condition (wrong part count, bound outside
[0, maxLen], or start > stop on a closed range); an integer-parse failure
instead surfaces the Atoi error carrying the offending split part; and any
`Parse` error is the error of one of its tokens. -/
theorem C6_error_classification (maxLen : Int) (tok : List Char) :
    (parseToken maxLen tok = .error .invalidRange ↔ invalidRangeCond maxLen tok = true) ∧
    (∀ s, parseToken maxLen tok = .error (.atoiErr s) →
      atoi s = none ∧ s ∈ splitChar '-' tok) ∧
    (∀ (ranges : List (List Char)) (pre : List Char) (e : Err),
      Parse ranges pre maxLen = .error e →
      ∃ t ∈ parseTokenList ranges pre, parseToken maxLen t = .error e) := by
  refine ⟨?_, ?_, ?_⟩
  · unfold parseToken invalidRangeCond
    generalize hs : splitChar '-' tok = parts
    cases parts with
    | nil => simp
    | cons p0 tl =>
      cases tl with
      | nil => simp
      | cons p1 tl2 =>
        cases tl2 with
        | cons p2 tl3 => simp
        | nil =>
          by_cases h0 : p0 = []
          · simp only [if_pos h0]
            cases ha : atoi p1 with
            | none => simp
            | some y =>
              by_cases hc : y < 0 ∨ y > maxLen
              · simp [hc]
              · simp [hc]
          · simp only [if_neg h0]
            by_cases h1 : p1 = []
            · simp only [if_pos h1]
              cases ha : atoi p0 with
              | none => simp
              | some x =>
                by_cases hc : x < 0 ∨ x > maxLen
                · simp [hc]
                · simp [hc]
            · simp only [if_neg h1]
              cases ha : atoi p0 with
              | none => simp
              | some x =>
                cases hb : atoi p1 with
                | none => simp
                | some y =>
                  by_cases hc : x < 0 ∨ y < 0 ∨ x > maxLen ∨ y > maxLen ∨ x > y
                  · simp [hc]
                  · simp [hc]
  · intro s h
    rcases parseToken_err_kinds h with h1 | ⟨s', h1, h2, h3⟩
    · exact Err.noConfusion h1
    · injection h1 with h1
      subst h1
      exact ⟨h2, h3⟩
  · intro ranges pre e h
    exact parseTokens_err (Parse_err_inv h)

/-- Witness for C6: the prefix-mismatch scenario leaves "foo=0" as a split
part, which fails Atoi. -/
theorem C6_error_classification_witness :
    atoi ("foo=0".toList) = none ∧ "foo=0".toList ∈ splitChar '-' ("foo=0-100".toList) :=
  (C6_error_classification 200 ("foo=0-100".toList)).2.1 ("foo=0".toList) (by decide)

/-- C7: `mergeRanges` is idempotent on every interval sequence. -/
theorem C7_mergeRanges_idempotent (xs : List Range) :
    mergeRanges (mergeRanges xs) = mergeRanges xs :=
  mergeRanges_idem_aux xs

/-- C8: `mergeRanges` is invariant under permutation of its input. -/
theorem C8_mergeRanges_perm_invariant (xs ys : List Range) (h : ys.Perm xs) :
    mergeRanges ys = mergeRanges xs :=
  mergeRanges_perm_aux ys xs h

/-- Witness for C8 on a concrete permutation. -/
theorem C8_mergeRanges_perm_invariant_witness :
    mergeRanges [Range.mk 2 3, Range.mk 0 1] = mergeRanges [Range.mk 0 1, Range.mk 2 3] :=
  C8_mergeRanges_perm_invariant [Range.mk 0 1, Range.mk 2 3]
    [Range.mk 2 3, Range.mk 0 1] (by decide)

/-- C9: a suffix-form token ""-Y with 0 ≤ Y ≤ maxLen yields the interval
[maxLen - Y, maxLen], both at token level and through `Parse`; Y = 0 is
accepted (see the witness) and yields [maxLen, maxLen]. -/
theorem C9_suffix_form {ys : List Char} {maxLen y : Int}
    (hm : '-' ∉ ys) (ha : atoi ys = some y) (h0 : 0 ≤ y) (h1 : y ≤ maxLen) :
    parseToken maxLen ('-' :: ys) = .ok { Start := maxLen - y, Stop := maxLen } ∧
    Parse [('-' :: ys)] [] maxLen = .ok [{ Start := maxLen - y, Stop := maxLen }] := by
  have hsplit : splitChar '-' ('-' :: ys) = [[], ys] := by
    simp [splitChar, splitChar_not_mem hm]
  have hcond : ¬(y < 0 ∨ y > maxLen) := by omega
  have hpt : parseToken maxLen ('-' :: ys) = .ok { Start := maxLen - y, Stop := maxLen } := by
    unfold parseToken
    rw [hsplit]
    simp [ha, hcond]
  refine ⟨hpt, ?_⟩
  have hcomma : ',' ∉ ('-' :: ys) := by
    intro hc
    rcases List.mem_cons.mp hc with hc | hc
    · exact absurd hc (by decide)
    · exact atoi_not_comma ha hc
  have htl : parseTokenList [('-' :: ys)] [] = [('-' :: ys)] := by
    unfold parseTokenList trimPre
    simp [splitChar_not_mem hcomma]
  unfold Parse
  rw [htl]
  simp only [parseTokens, hpt]
  rfl

/-- Witness for C9 with Y = 0: the single-point interval [5, 5] is produced,
not an error. -/
theorem C9_suffix_form_witness :
    parseToken 5 ('-' :: ['0']) = .ok { Start := 5 - 0, Stop := 5 } ∧
    Parse [('-' :: ['0'])] [] 5 = .ok [{ Start := 5 - 0, Stop := 5 }] :=
  @C9_suffix_form ['0'] 5 0 (by decide) (by decide) (by decide) (by decide)

/-- C10: dash-split parts never contain '-', so a part that parses as an
integer is non-negative, making the x < 0 / y < 0 comparisons dead:
`parseToken` equals the variant with those disjuncts deleted, on every
input. -/
theorem C10_negative_checks_dead (maxLen : Int) (tok : List Char) :
    (∀ p ∈ splitChar '-' tok, '-' ∉ p) ∧
    parseToken maxLen tok = parseTokenNoNeg maxLen tok :=
  ⟨splitChar_parts '-' tok, parseToken_eq_noNeg maxLen tok⟩

/-- Witness for C10 on a concrete token. -/
theorem C10_negative_checks_dead_witness :
    '-' ∉ (['0'] : List Char) ∧
    parseToken 350 ("0-99".toList) = parseTokenNoNeg 350 ("0-99".toList) :=
  ⟨(C10_negative_checks_dead 350 ("0-99".toList)).1 ['0'] (by decide),
   (C10_negative_checks_dead 350 ("0-99".toList)).2⟩
